import Mathlib

/-!
Verification of the docker-image-accelerator component
(`skills/docker-image-accelerator/scripts/accelerate_docker_pull.py`).

Strings are modelled as `List Char` (named `Str`), Python's `str.split`,
`str.startswith` and `in` become the corresponding list operations, the
`REGISTRY_MIRRORS` dict becomes an association list, and the subprocess
calls of `accelerate_pull` / `main` are modelled by an injected runner
`Cmd → Int` returning the exit code of each invoked docker command; the
orchestration functions additionally return the trace of commands issued.
-/

abbrev Str := List Char

/-- Python `image.split('/', 1)`: the part before the first `'/'`, and
`some` of the part after it (`none` when the string has no `'/'`). -/
def splitFirstSlash : Str → Str × Option Str
  | [] => ([], none)
  | c :: rest =>
    if c = '/' then ([], some rest)
    else
      let p := splitFirstSlash rest
      (c :: p.1, p.2)

/-- Python `image.split('/')` (full split on every `'/'`). -/
def splitOnSlash : Str → List Str
  | [] => [[]]
  | c :: rest =>
    if c = '/' then [] :: splitOnSlash rest
    else
      match splitOnSlash rest with
      | [] => [[c]]
      | a :: as => (c :: a) :: as

/-- The literal `"docker.io/library/"` prepended by rule 1 of
`normalize_image_name`. -/
def strDockerLibSlash : Str := "docker.io/library/".toList

/-- The literal `"docker.io/"` prepended by rule 2 of
`normalize_image_name`. -/
def strDockerIoSlash : Str := "docker.io/".toList

/-- The accelerator hostname literal `"m.daocloud.io/"`. -/
def strMDao : Str := "m.daocloud.io/".toList

/-- The `REGISTRY_MIRRORS` dict of the script, as an association list. -/
def REGISTRY_MIRRORS : List (Str × Str) :=
  [ ("docker.io".toList, "m.daocloud.io/docker.io".toList),
    ("gcr.io".toList, "m.daocloud.io/gcr.io".toList),
    ("ghcr.io".toList, "m.daocloud.io/ghcr.io".toList),
    ("k8s.gcr.io".toList, "m.daocloud.io/k8s.gcr.io".toList),
    ("registry.k8s.io".toList, "m.daocloud.io/registry.k8s.io".toList),
    ("quay.io".toList, "m.daocloud.io/quay.io".toList),
    ("k8s-gcr.m.daocloud.io".toList, "m.daocloud.io/k8s.gcr.io".toList),
    ("docker.m.daocloud.io".toList, "m.daocloud.io/docker.io".toList),
    ("elastic.m.daocloud.io".toList, "m.daocloud.io/docker.elastic.co".toList),
    ("gcr.m.daocloud.io".toList, "m.daocloud.io/gcr.io".toList),
    ("ghcr.m.daocloud.io".toList, "m.daocloud.io/ghcr.io".toList),
    ("k8s.m.daocloud.io".toList, "m.daocloud.io/registry.k8s.io".toList),
    ("mcr.m.daocloud.io".toList, "m.daocloud.io/mcr.microsoft.com".toList),
    ("nvcr.m.daocloud.io".toList, "m.daocloud.io/nvcr.io".toList),
    ("quay.m.daocloud.io".toList, "m.daocloud.io/quay.io".toList) ]

/-- Association-list lookup (Python `registry in REGISTRY_MIRRORS` /
`REGISTRY_MIRRORS[registry]` combined). -/
def lookupAssoc : List (Str × Str) → Str → Option Str
  | [], _ => none
  | (k, v) :: rest, r => if k = r then some v else lookupAssoc rest r

/-- Lookup in the mirror table. -/
def lookupMirror (r : Str) : Option Str :=
  lookupAssoc REGISTRY_MIRRORS r

/-- `normalize_image_name` of the script, translated clause by clause:
no `'/'` → prepend `docker.io/library/`; exactly two `'/'`-separated
parts whose first contains neither `'.'` nor `':'` → prepend
`docker.io/`; otherwise unchanged. -/
def normalize_image_name (image : Str) : Str :=
  if '/' ∈ image then
    let parts := splitOnSlash image
    if parts.length = 2 ∧ '.' ∉ parts.headD [] ∧ ':' ∉ parts.headD [] then
      strDockerIoSlash ++ image
    else image
  else strDockerLibSlash ++ image

/-- `convert_to_mirror_image` of the script: split on the first `'/'`
(`none` when there is no `'/'`, mirroring `len(parts) < 2`), then the
mapping-table branch, the `startswith("m.daocloud.io/")` branch, and the
generic-prefix fallback. -/
def convert_to_mirror_image (image : Str) : Option Str :=
  match (splitFirstSlash image).2 with
  | none => none
  | some rest =>
    let registry := (splitFirstSlash image).1
    match lookupMirror registry with
    | some mirror_registry =>
        some (if rest = [] then mirror_registry else mirror_registry ++ '/' :: rest)
    | none =>
        if strMDao.isPrefixOf image then some image
        else some (strMDao ++ image)

/-- The docker commands issued by the script, identified by their
arguments. -/
inductive Cmd
  | pull (image : Str)
  | tag (source target : Str)
  | rmi (image : Str)
deriving DecidableEq

/-- Python truthiness of the `Optional[str]` tested by
`if not mirror_image:`: falsy iff `None` or the empty string. -/
def truthyOpt : Option Str → Bool
  | none => false
  | some s => !s.isEmpty

/-- `accelerate_pull` of the script, with the container runtime injected
as `runner : Cmd → Int` (the exit code of each docker invocation).
Returns the success flag together with the trace of commands issued, in
order. -/
def accelerate_pull (runner : Cmd → Int) (original_image : Str) : Bool × List Cmd :=
  let normalized_image := normalize_image_name original_image
  let mirrorOpt := convert_to_mirror_image normalized_image
  if truthyOpt mirrorOpt = false then (false, [])
  else
    let mirror_image := mirrorOpt.getD []
    let pullRc := runner (Cmd.pull mirror_image)
    if pullRc ≠ 0 then (false, [Cmd.pull mirror_image])
    else
      let target_image := if '/' ∈ original_image then original_image else normalized_image
      let tagCmd := Cmd.tag mirror_image target_image
      if mirror_image ≠ target_image then
        (true, [Cmd.pull mirror_image, tagCmd, Cmd.rmi mirror_image])
      else
        (true, [Cmd.pull mirror_image, tagCmd])

/-- The mirror reference `accelerate_pull` pulls for a given original
input. -/
def mirrorOf (original : Str) : Str :=
  (convert_to_mirror_image (normalize_image_name original)).getD []

/-- The target reference `accelerate_pull` tags the pulled image as. -/
def targetOf (original : Str) : Str :=
  if '/' ∈ original then original else normalize_image_name original

/-- The success/failure counters of `main`'s loop over the input
images. -/
def processImages (runner : Cmd → Int) : List Str → Nat × Nat
  | [] => (0, 0)
  | img :: rest =>
    let r := processImages runner rest
    if (accelerate_pull runner img).1 then (r.1 + 1, r.2) else (r.1, r.2 + 1)

/-- The process exit code of `main`: `1` on empty argument list (usage
error), else `0` iff no image failed. -/
def mainExitCode (runner : Cmd → Int) (images : List Str) : Nat :=
  if images = [] then 1
  else if (processImages runner images).2 = 0 then 0 else 1

/-! ### Lemmas about the split and prefix primitives -/

theorem splitFirstSlash_no_slash (s : Str) (h : '/' ∉ s) :
    splitFirstSlash s = (s, none) := by
  induction s with
  | nil => rfl
  | cons c rest ih =>
    have hc : ¬ c = '/' := fun hc => h (hc ▸ List.mem_cons_self c rest)
    have hr : '/' ∉ rest := fun hm => h (List.mem_cons_of_mem c hm)
    simp [splitFirstSlash, hc, ih hr]

theorem splitFirstSlash_append (a t : Str) (h : '/' ∉ a) :
    splitFirstSlash (a ++ '/' :: t) = (a, some t) := by
  induction a with
  | nil => simp [splitFirstSlash]
  | cons c rest ih =>
    have hc : ¬ c = '/' := fun hc => h (hc ▸ List.mem_cons_self c rest)
    have hr : '/' ∉ rest := fun hm => h (List.mem_cons_of_mem c hm)
    simp [splitFirstSlash, hc, ih hr]

theorem splitFirstSlash_some (s a r : Str) (h : splitFirstSlash s = (a, some r)) :
    s = a ++ '/' :: r ∧ '/' ∉ a := by
  induction s generalizing a with
  | nil => simp [splitFirstSlash] at h
  | cons c rest ih =>
    by_cases hc : c = '/'
    · subst hc
      simp [splitFirstSlash] at h
      obtain ⟨ha, hr⟩ := h
      subst ha; subst hr
      exact ⟨rfl, List.not_mem_nil '/'⟩
    · simp only [splitFirstSlash] at h
      rw [if_neg hc] at h
      have h1 : c :: (splitFirstSlash rest).1 = a := congrArg Prod.fst h
      have h2 : (splitFirstSlash rest).2 = some r := congrArg Prod.snd h
      have hrest : splitFirstSlash rest = ((splitFirstSlash rest).1, some r) := by
        rw [← h2]
      obtain ⟨hs, hna⟩ := ih (splitFirstSlash rest).1 hrest
      subst h1
      refine ⟨by rw [List.cons_append]; exact congrArg (List.cons c) hs, ?_⟩
      intro hmem
      rcases List.mem_cons.1 hmem with hm | hm
      · exact hc hm.symm
      · exact hna hm

theorem mem_slash_of_splitFirstSlash (s : Str) (h : '/' ∈ s) :
    ∃ a r, splitFirstSlash s = (a, some r) := by
  induction s with
  | nil => simp at h
  | cons c rest ih =>
    by_cases hc : c = '/'
    · subst hc; exact ⟨[], rest, by simp [splitFirstSlash]⟩
    · have hr : '/' ∈ rest := by
        rcases List.mem_cons.1 h with h | h
        · exact absurd h.symm hc
        · exact h
      obtain ⟨a, r, har⟩ := ih hr
      exact ⟨c :: a, r, by simp [splitFirstSlash, hc, har]⟩

theorem splitOnSlash_ne_nil (s : Str) : splitOnSlash s ≠ [] := by
  cases s with
  | nil => simp [splitOnSlash]
  | cons c rest =>
    by_cases hc : c = '/'
    · simp [splitOnSlash, hc]
    · simp only [splitOnSlash, if_neg hc]
      cases splitOnSlash rest <;> simp

theorem splitOnSlash_no_slash (s : Str) (h : '/' ∉ s) :
    splitOnSlash s = [s] := by
  induction s with
  | nil => rfl
  | cons c rest ih =>
    have hc : ¬ c = '/' := fun hc => h (hc ▸ List.mem_cons_self c rest)
    have hr : '/' ∉ rest := fun hm => h (List.mem_cons_of_mem c hm)
    simp [splitOnSlash, hc, ih hr]

theorem splitOnSlash_append (a t : Str) (h : '/' ∉ a) :
    splitOnSlash (a ++ '/' :: t) = a :: splitOnSlash t := by
  induction a with
  | nil => simp [splitOnSlash]
  | cons c rest ih =>
    have hc : ¬ c = '/' := fun hc => h (hc ▸ List.mem_cons_self c rest)
    have hr : '/' ∉ rest := fun hm => h (List.mem_cons_of_mem c hm)
    simp only [List.cons_append, splitOnSlash, if_neg hc]
    rw [List.append_eq, ih hr]

theorem splitOnSlash_two_of_mem (s : Str) (h : '/' ∈ s) :
    ∃ a b l, splitOnSlash s = a :: b :: l := by
  induction s with
  | nil => simp at h
  | cons c rest ih =>
    by_cases hc : c = '/'
    · subst hc
      rcases hb : splitOnSlash rest with _ | ⟨b, l⟩
      · exact absurd hb (splitOnSlash_ne_nil rest)
      · exact ⟨[], b, l, by simp [splitOnSlash, hb]⟩
    · have hr : '/' ∈ rest := by
        rcases List.mem_cons.1 h with h | h
        · exact absurd h.symm hc
        · exact h
      obtain ⟨a, b, l, hab⟩ := ih hr
      exact ⟨c :: a, b, l, by simp [splitOnSlash, hc, hab]⟩

theorem isPrefixOf_append_self (a b : Str) : a.isPrefixOf (a ++ b) = true := by
  induction a with
  | nil => simp [List.isPrefixOf]
  | cons c rest ih => simp [List.isPrefixOf, ih]

theorem exists_of_isPrefixOf (a s : Str) (h : a.isPrefixOf s = true) :
    ∃ t, s = a ++ t := by
  induction a generalizing s with
  | nil => exact ⟨s, rfl⟩
  | cons c rest ih =>
    cases s with
    | nil => simp [List.isPrefixOf] at h
    | cons d ds =>
      simp only [List.isPrefixOf, Bool.and_eq_true, beq_iff_eq] at h
      obtain ⟨t, ht⟩ := ih ds h.2
      exact ⟨t, by rw [h.1, ht]; rfl⟩

theorem lookupAssoc_some_values (l : List (Str × Str)) (r m : Str)
    (hv : ∀ p ∈ l, strMDao.isPrefixOf p.2 = true)
    (h : lookupAssoc l r = some m) : strMDao.isPrefixOf m = true := by
  induction l with
  | nil => simp [lookupAssoc] at h
  | cons p rest ih =>
    match p with
    | (k, v) =>
      by_cases hk : k = r
      · simp [lookupAssoc, hk] at h
        exact h ▸ hv (k, v) (List.mem_cons_self _ _)
      · simp only [lookupAssoc, if_neg hk] at h
        exact ih (fun q hq => hv q (List.mem_cons_of_mem _ hq)) h

theorem lookupMirror_some_mdao (r m : Str) (h : lookupMirror r = some m) :
    ∃ t, m = strMDao ++ t := by
  have hp : strMDao.isPrefixOf m = true :=
    lookupAssoc_some_values REGISTRY_MIRRORS r m (by decide) h
  exact exists_of_isPrefixOf _ _ hp

/-! ### Behaviour of `normalize_image_name` and `convert_to_mirror_image` -/

theorem normalize_no_slash (raw : Str) (h : '/' ∉ raw) :
    normalize_image_name raw = strDockerLibSlash ++ raw := by
  simp [normalize_image_name, h]

theorem normalize_two_parts (seg rest : Str) (hseg : '/' ∉ seg) (hrest : '/' ∉ rest) :
    normalize_image_name (seg ++ '/' :: rest) =
      (if '.' ∉ seg ∧ ':' ∉ seg then strDockerIoSlash ++ (seg ++ '/' :: rest)
       else seg ++ '/' :: rest) := by
  have hmem : '/' ∈ seg ++ '/' :: rest :=
    List.mem_append_right seg (List.mem_cons_self '/' rest)
  have hsplit : splitOnSlash (seg ++ '/' :: rest) = seg :: splitOnSlash rest :=
    splitOnSlash_append seg rest hseg
  have hone : splitOnSlash rest = [rest] := splitOnSlash_no_slash rest hrest
  rw [normalize_image_name, if_pos hmem]
  simp only [hsplit, hone]
  by_cases hcond : '.' ∉ seg ∧ ':' ∉ seg
  · rw [if_pos hcond, if_pos ⟨rfl, hcond.1, hcond.2⟩]
  · rw [if_neg hcond, if_neg]
    intro hc
    exact hcond ⟨hc.2.1, hc.2.2⟩

theorem normalize_many_parts (seg rest : Str) (hseg : '/' ∉ seg) (hrest : '/' ∈ rest) :
    normalize_image_name (seg ++ '/' :: rest) = seg ++ '/' :: rest := by
  have hmem : '/' ∈ seg ++ '/' :: rest :=
    List.mem_append_right seg (List.mem_cons_self '/' rest)
  have hsplit : splitOnSlash (seg ++ '/' :: rest) = seg :: splitOnSlash rest :=
    splitOnSlash_append seg rest hseg
  obtain ⟨a, b, l, habl⟩ := splitOnSlash_two_of_mem rest hrest
  rw [normalize_image_name, if_pos hmem]
  simp only [hsplit, habl]
  rw [if_neg]
  intro hc
  simp [List.length_cons] at hc

theorem convert_known_registry (registry rest m : Str) (hreg : '/' ∉ registry)
    (hm : lookupMirror registry = some m) :
    convert_to_mirror_image (registry ++ '/' :: rest) =
      some (if rest = [] then m else m ++ '/' :: rest) := by
  rw [convert_to_mirror_image]
  simp only [splitFirstSlash_append registry rest hreg, hm]

theorem convert_unknown_with_mdao (registry rest : Str) (hreg : '/' ∉ registry)
    (hm : lookupMirror registry = none)
    (hp : strMDao.isPrefixOf (registry ++ '/' :: rest) = true) :
    convert_to_mirror_image (registry ++ '/' :: rest) =
      some (registry ++ '/' :: rest) := by
  rw [convert_to_mirror_image]
  simp only [splitFirstSlash_append registry rest hreg, hm, hp, if_pos]

theorem convert_unknown_fallback (registry rest : Str) (hreg : '/' ∉ registry)
    (hm : lookupMirror registry = none)
    (hp : strMDao.isPrefixOf (registry ++ '/' :: rest) = false) :
    convert_to_mirror_image (registry ++ '/' :: rest) =
      some (strMDao ++ (registry ++ '/' :: rest)) := by
  rw [convert_to_mirror_image]
  simp only [splitFirstSlash_append registry rest hreg, hm, hp]
  rw [if_neg]
  simp [hp]

theorem convert_eq_none_iff (s : Str) :
    convert_to_mirror_image s = none ↔ '/' ∉ s := by
  constructor
  · intro h hmem
    obtain ⟨a, r, har⟩ := mem_slash_of_splitFirstSlash s hmem
    rw [convert_to_mirror_image, har] at h
    cases hlk : lookupMirror a <;> simp [hlk] at h
    split at h <;> simp at h
  · intro h
    rw [convert_to_mirror_image, splitFirstSlash_no_slash s h]

theorem strMDao_decompose : strMDao = "m.daocloud.io".toList ++ '/' :: [] := by
  decide

theorem strMDao_append (u : Str) :
    strMDao ++ u = "m.daocloud.io".toList ++ '/' :: u := by
  rw [strMDao_decompose, List.append_assoc]
  rfl

/-- References that start with the accelerator hostname are fixed points
of both normalization and mirror conversion. -/
theorem mdao_stable (u : Str) :
    normalize_image_name (strMDao ++ u) = strMDao ++ u ∧
    convert_to_mirror_image (strMDao ++ u) = some (strMDao ++ u) := by
  have hhost : '/' ∉ "m.daocloud.io".toList := by decide
  have hdot : '.' ∈ "m.daocloud.io".toList := by decide
  constructor
  · rw [strMDao_append]
    have hmem : '/' ∈ "m.daocloud.io".toList ++ '/' :: u :=
      List.mem_append_right _ (List.mem_cons_self '/' u)
    rw [normalize_image_name, if_pos hmem]
    simp only [splitOnSlash_append _ u hhost]
    rw [if_neg]
    intro hc
    exact hc.2.1 hdot
  · have hlk : lookupMirror ("m.daocloud.io".toList) = none := by decide
    have hp : strMDao.isPrefixOf (strMDao ++ u) = true := isPrefixOf_append_self strMDao u
    rw [strMDao_append] at hp ⊢
    rw [convert_to_mirror_image]
    simp only [splitFirstSlash_append _ u hhost, hlk, hp, if_pos]

theorem append_cons_ne_nil (a : Str) (c : Char) (l : Str) : a ++ c :: l ≠ [] := by
  cases a <;> simp

theorem convert_total (s : Str) (h : '/' ∈ s) :
    ∃ m, convert_to_mirror_image s = some m ∧ m ≠ [] := by
  obtain ⟨a, r, har⟩ := mem_slash_of_splitFirstSlash s h
  obtain ⟨hs, hna⟩ := splitFirstSlash_some s a r har
  cases hlk : lookupMirror a with
  | some m =>
    obtain ⟨t, ht⟩ := lookupMirror_some_mdao a m hlk
    refine ⟨if r = [] then m else m ++ '/' :: r, ?_, ?_⟩
    · rw [hs]; exact convert_known_registry a r m hna hlk
    · by_cases hr : r = []
      · rw [if_pos hr, ht, strMDao_append]
        simp
      · rw [if_neg hr]
        exact append_cons_ne_nil m '/' r
  | none =>
    by_cases hp : strMDao.isPrefixOf s = true
    · refine ⟨s, ?_, ?_⟩
      · rw [hs] at hp ⊢
        exact convert_unknown_with_mdao a r hna hlk hp
      · rw [hs]; exact append_cons_ne_nil a '/' r
    · refine ⟨strMDao ++ s, ?_, ?_⟩
      · rw [hs] at hp ⊢
        exact convert_unknown_fallback a r hna hlk (Bool.eq_false_iff.2 hp)
      · rw [strMDao_append]; simp
  
theorem slash_mem_normalize (raw : Str) : '/' ∈ normalize_image_name raw := by
  by_cases h : '/' ∈ raw
  · simp only [normalize_image_name, if_pos h]
    split
    · exact List.mem_append_right _ h
    · exact h
  · rw [normalize_no_slash raw h]
    exact List.mem_append_left _ (by decide)

theorem convert_normalize_eq (raw : Str) :
    convert_to_mirror_image (normalize_image_name raw) = some (mirrorOf raw) ∧
    mirrorOf raw ≠ [] := by
  obtain ⟨m, hm, hne⟩ := convert_total _ (slash_mem_normalize raw)
  have hmir : mirrorOf raw = m := by rw [mirrorOf, hm]; rfl
  exact ⟨by rw [hm, hmir], by rw [hmir]; exact hne⟩

theorem accelerate_pull_eq (runner : Cmd → Int) (o : Str) :
    accelerate_pull runner o =
      if runner (Cmd.pull (mirrorOf o)) ≠ 0 then
        (false, [Cmd.pull (mirrorOf o)])
      else if mirrorOf o ≠ targetOf o then
        (true, [Cmd.pull (mirrorOf o), Cmd.tag (mirrorOf o) (targetOf o),
                Cmd.rmi (mirrorOf o)])
      else
        (true, [Cmd.pull (mirrorOf o), Cmd.tag (mirrorOf o) (targetOf o)]) := by
  obtain ⟨hc, hne⟩ := convert_normalize_eq o
  have htr : truthyOpt (some (mirrorOf o)) = true := by
    cases hm : mirrorOf o with
    | nil => exact absurd hm hne
    | cons c cs => simp [truthyOpt]
  simp only [accelerate_pull, hc, htr, Option.getD_some, targetOf, Bool.true_eq_false,
    if_false]

theorem countP_not_add (p : Str → Bool) (l : List Str) :
    l.countP p + l.countP (fun a => !(p a)) = l.length := by
  induction l with
  | nil => simp
  | cons a l ih =>
    by_cases h : p a = true <;>
      simp [List.countP_cons, h] <;> omega

theorem processImages_counts (runner : Cmd → Int) (images : List Str) :
    processImages runner images =
      (images.countP (fun i => (accelerate_pull runner i).1),
       images.countP (fun i => !(accelerate_pull runner i).1)) := by
  induction images with
  | nil => simp [processImages]
  | cons img rest ih =>
    simp only [processImages, ih]
    by_cases h : (accelerate_pull runner img).1 = true <;>
      simp [List.countP_cons, h]

/-! ### Claim theorems -/

/-- C1: `normalize_image_name` applies exactly one of three rules: with no
`'/'` in the input it returns `docker.io/library/` + input; with exactly
one `'/'` and a first segment free of `'.'` and `':'` it returns
`docker.io/` + input; in every other case (first segment has `'.'` or
`':'`, or more than two segments) it returns the input unchanged. -/
theorem c1_normalize_three_rules (raw : Str) :
    ('/' ∉ raw → normalize_image_name raw = strDockerLibSlash ++ raw) ∧
    (∀ seg rest, raw = seg ++ '/' :: rest → '/' ∉ seg → '/' ∉ rest →
      (('.' ∉ seg ∧ ':' ∉ seg) →
          normalize_image_name raw = strDockerIoSlash ++ raw) ∧
      (('.' ∈ seg ∨ ':' ∈ seg) → normalize_image_name raw = raw)) ∧
    (∀ seg rest, raw = seg ++ '/' :: rest → '/' ∉ seg → '/' ∈ rest →
      normalize_image_name raw = raw) := by
  refine ⟨fun h => normalize_no_slash raw h, ?_, ?_⟩
  · intro seg rest hraw hseg hrest
    subst hraw
    constructor
    · intro hcond
      rw [normalize_two_parts seg rest hseg hrest, if_pos hcond]
    · intro hcond
      rw [normalize_two_parts seg rest hseg hrest, if_neg]
      intro hc
      rcases hcond with hd | hd
      · exact hc.1 hd
      · exact hc.2 hd
  · intro seg rest hraw hseg hrest
    subst hraw
    exact normalize_many_parts seg rest hseg hrest

/-- Witness for C1 at the spec's own examples: a bare name, a
user/organization two-segment name, and a registry-qualified name. -/
theorem c1_normalize_three_rules_witness :
    normalize_image_name ("nginx:latest".toList) =
      strDockerLibSlash ++ "nginx:latest".toList ∧
    normalize_image_name ("library".toList ++ '/' :: "nginx".toList) =
      strDockerIoSlash ++ ("library".toList ++ '/' :: "nginx".toList) ∧
    normalize_image_name ("gcr.io".toList ++ '/' :: "pause:3.1".toList) =
      "gcr.io".toList ++ '/' :: "pause:3.1".toList :=
  ⟨(c1_normalize_three_rules _).1 (by decide),
   ((c1_normalize_three_rules _).2.1 _ _ rfl (by decide) (by decide)).1 (by decide),
   ((c1_normalize_three_rules _).2.1 _ _ rfl (by decide) (by decide)).2 (by decide)⟩

/-- C2: on a normalized reference `registry ++ "/" ++ rest` with `rest`
non-empty, a known registry is rewritten to its configured mirror, and an
unknown registry that does not already carry the accelerator prefix falls
back to prepending `m.daocloud.io/` to the whole reference. -/
theorem c2_mirror_selection (registry rest : Str) (h1 : '/' ∉ registry)
    (h2 : rest ≠ []) :
    (∀ m, lookupMirror registry = some m →
        convert_to_mirror_image (registry ++ '/' :: rest) =
          some (m ++ '/' :: rest)) ∧
    (lookupMirror registry = none →
      strMDao.isPrefixOf (registry ++ '/' :: rest) = false →
        convert_to_mirror_image (registry ++ '/' :: rest) =
          some (strMDao ++ (registry ++ '/' :: rest))) := by
  constructor
  · intro m hm
    rw [convert_known_registry registry rest m h1 hm, if_neg h2]
  · intro hm hp
    exact convert_unknown_fallback registry rest h1 hm hp

/-- Witness for C2: the mapped registry `gcr.io` and the unknown registry
`example.com` of the spec's example. -/
theorem c2_mirror_selection_witness :
    convert_to_mirror_image ("gcr.io".toList ++ '/' :: "pause:3.1".toList) =
      some ("m.daocloud.io/gcr.io".toList ++ '/' :: "pause:3.1".toList) ∧
    convert_to_mirror_image ("example.com".toList ++ '/' :: "foo:1".toList) =
      some (strMDao ++ ("example.com".toList ++ '/' :: "foo:1".toList)) :=
  ⟨(c2_mirror_selection _ _ (by decide) (by decide)).1 _ (by decide),
   (c2_mirror_selection _ _ (by decide) (by decide)).2 (by decide) (by decide)⟩

/-- C4 counterexample: `docker.io/` is a fixed point of normalization and
its portion after the first `'/'` is empty, yet `convert_to_mirror_image`
does not fail on it: it returns the bare mirror prefix, not `none`. -/
theorem c4_resolution_counterexample :
    normalize_image_name ("docker.io".toList ++ ['/']) =
      "docker.io".toList ++ ['/'] ∧
    convert_to_mirror_image ("docker.io".toList ++ ['/']) =
      some ("m.daocloud.io/docker.io".toList) ∧
    ¬ convert_to_mirror_image ("docker.io".toList ++ ['/']) = none := by
  decide

/-- C4 amended: mirror resolution returns `none` exactly when the
reference contains no `'/'` at all; a reference with an empty portion
after the first `'/'` still resolves (for a known registry, to the bare
configured mirror prefix). -/
theorem c4_amended_resolution (s : Str) :
    (convert_to_mirror_image s = none ↔ '/' ∉ s) ∧
    (∀ registry m, s = registry ++ ['/'] → '/' ∉ registry →
        lookupMirror registry = some m →
        convert_to_mirror_image s = some m) := by
  refine ⟨convert_eq_none_iff s, ?_⟩
  intro registry m hs hreg hm
  subst hs
  rw [convert_known_registry registry [] m hreg hm, if_pos rfl]

/-- C8: mirror resolution is idempotent on its own output: any defined
result of `convert_to_mirror_image`, after re-normalization, converts to
itself (no second accelerator prefix is added). -/
theorem c8_mirror_idempotent (x y : Str)
    (h : convert_to_mirror_image x = some y) :
    convert_to_mirror_image (normalize_image_name y) = some y := by
  have hy : ∃ u, y = strMDao ++ u := by
    rcases hsp : splitFirstSlash x with ⟨a, b⟩
    cases b with
    | none =>
      rw [convert_to_mirror_image, hsp] at h
      simp at h
    | some r =>
      obtain ⟨hx, hna⟩ := splitFirstSlash_some x a r hsp
      cases hlk : lookupMirror a with
      | some m =>
        obtain ⟨t, ht⟩ := lookupMirror_some_mdao a m hlk
        have hcv := convert_known_registry a r m hna hlk
        rw [← hx] at hcv
        rw [hcv] at h
        injection h with h
        by_cases hr : r = []
        · exact ⟨t, by rw [← h, if_pos hr, ht]⟩
        · refine ⟨t ++ '/' :: r, ?_⟩
          rw [← h, if_neg hr, ht, List.append_assoc]
      | none =>
        by_cases hp : strMDao.isPrefixOf x = true
        · have hp' : strMDao.isPrefixOf (a ++ '/' :: r) = true := hx ▸ hp
          have hcv := convert_unknown_with_mdao a r hna hlk hp'
          rw [← hx] at hcv
          rw [hcv] at h
          injection h with h
          obtain ⟨t, ht⟩ := exists_of_isPrefixOf strMDao x hp
          exact ⟨t, by rw [← h, ht]⟩
        · have hp' : strMDao.isPrefixOf (a ++ '/' :: r) = false := by
            rw [← hx]
            exact Bool.eq_false_iff.2 hp
          have hcv := convert_unknown_fallback a r hna hlk hp'
          rw [← hx] at hcv
          rw [hcv] at h
          injection h with h
          exact ⟨x, h.symm⟩
  obtain ⟨u, hu⟩ := hy
  subst hu
  rw [(mdao_stable u).1]
  exact (mdao_stable u).2

/-- Witness for C8: the mirror of the normalized `nginx:latest` reference
converts to itself after re-normalization. -/
theorem c8_mirror_idempotent_witness :
    convert_to_mirror_image
        (normalize_image_name
          ("m.daocloud.io/docker.io/library/nginx:latest".toList)) =
      some ("m.daocloud.io/docker.io/library/nginx:latest".toList) :=
  c8_mirror_idempotent ("docker.io/library/nginx:latest".toList) _ (by decide)

/-- C10: every raw input normalizes to a reference containing `'/'`, so
mirror conversion after normalization never returns `none` (nor an empty
string): the unsupported-source error branch of `accelerate_pull` is
unreachable. -/
theorem c10_unsupported_branch_unreachable (raw : Str) :
    '/' ∈ normalize_image_name raw ∧
    convert_to_mirror_image (normalize_image_name raw) = some (mirrorOf raw) ∧
    mirrorOf raw ≠ [] ∧
    truthyOpt (convert_to_mirror_image (normalize_image_name raw)) = true := by
  obtain ⟨hc, hne⟩ := convert_normalize_eq raw
  refine ⟨slash_mem_normalize raw, hc, hne, ?_⟩
  rw [hc]
  cases hm : mirrorOf raw with
  | nil => exact absurd hm hne
  | cons c cs => simp [truthyOpt]

/-- C3: when the pull step succeeds, the tag target is the original input
verbatim when the original contains a `'/'`, and the normalized form when
it does not. -/
theorem c3_tag_target (runner : Cmd → Int) (original : Str)
    (h : runner (Cmd.pull (mirrorOf original)) = 0) :
    ((accelerate_pull runner original).2)[1]? =
      some (Cmd.tag (mirrorOf original)
        (if '/' ∈ original then original
         else normalize_image_name original)) := by
  rw [accelerate_pull_eq, if_neg (fun hn => hn h)]
  by_cases hd : mirrorOf original ≠ targetOf original
  · rw [if_pos hd]
    simp [targetOf]
  · rw [if_neg hd]
    simp [targetOf]

/-- Witness for C3: a bare `nginx:latest` input is tagged as its
normalized `docker.io/library/...` form. -/
theorem c3_tag_target_witness :
    ((accelerate_pull (fun _ => 0) ("nginx:latest".toList)).2)[1]? =
      some (Cmd.tag (mirrorOf ("nginx:latest".toList))
        (if '/' ∈ ("nginx:latest".toList) then "nginx:latest".toList
         else normalize_image_name ("nginx:latest".toList))) :=
  c3_tag_target (fun _ => 0) ("nginx:latest".toList) rfl

/-- C5: a non-zero pull exit makes `accelerate_pull` fail for that image,
and neither a tag command nor a mirror-removal command is issued. -/
theorem c5_pull_failure_no_tag (runner : Cmd → Int) (original : Str)
    (h : runner (Cmd.pull (mirrorOf original)) ≠ 0) :
    (accelerate_pull runner original).1 = false ∧
    (∀ s t, Cmd.tag s t ∉ (accelerate_pull runner original).2) ∧
    (∀ i, Cmd.rmi i ∉ (accelerate_pull runner original).2) := by
  rw [accelerate_pull_eq, if_pos h]
  refine ⟨rfl, ?_, ?_⟩
  · intro s t
    simp
  · intro i
    simp

/-- Witness for C5 with a runner whose every command exits 1. -/
theorem c5_pull_failure_no_tag_witness :
    (accelerate_pull (fun _ => 1) ("nginx:latest".toList)).1 = false ∧
    (∀ s t, Cmd.tag s t ∉ (accelerate_pull (fun _ => 1) ("nginx:latest".toList)).2) ∧
    (∀ i, Cmd.rmi i ∉ (accelerate_pull (fun _ => 1) ("nginx:latest".toList)).2) :=
  c5_pull_failure_no_tag (fun _ => 1) ("nginx:latest".toList) (by decide)

/-- C6: a zero pull exit makes `accelerate_pull` succeed, whatever exit
codes the runner returns for the subsequent tag and cleanup commands. -/
theorem c6_success_despite_warnings (runner : Cmd → Int) (original : Str)
    (h : runner (Cmd.pull (mirrorOf original)) = 0) :
    (accelerate_pull runner original).1 = true := by
  rw [accelerate_pull_eq, if_neg (fun hn => hn h)]
  by_cases hd : mirrorOf original ≠ targetOf original
  · rw [if_pos hd]
  · rw [if_neg hd]

/-- Witness for C6 with a runner whose pull commands exit 0 while its tag
and rmi commands exit 1. -/
theorem c6_success_despite_warnings_witness :
    (accelerate_pull
        (fun c => match c with | Cmd.pull _ => 0 | _ => 1)
        ("nginx:latest".toList)).1 = true :=
  c6_success_despite_warnings
    (fun c => match c with | Cmd.pull _ => 0 | _ => 1)
    ("nginx:latest".toList) rfl

/-- C9: after a successful pull, the mirror-removal command is issued
exactly when the mirror reference differs from the target reference, and
its exit code never changes the recorded success. -/
theorem c9_cleanup_iff_distinct (runner : Cmd → Int) (original : Str)
    (h : runner (Cmd.pull (mirrorOf original)) = 0) :
    (Cmd.rmi (mirrorOf original) ∈ (accelerate_pull runner original).2 ↔
      mirrorOf original ≠ targetOf original) ∧
    (accelerate_pull runner original).1 = true := by
  rw [accelerate_pull_eq, if_neg (fun hn => hn h)]
  by_cases hd : mirrorOf original ≠ targetOf original
  · rw [if_pos hd]
    exact ⟨⟨fun _ => hd, fun _ => by simp⟩, rfl⟩
  · rw [if_neg hd]
    refine ⟨⟨fun hmem => ?_, fun hne => absurd hne hd⟩, rfl⟩
    simp at hmem

/-- Witness for C9: for `nginx:latest` under an all-zero runner the
mirror and target differ, so the cleanup command appears in the trace. -/
theorem c9_cleanup_iff_distinct_witness :
    (Cmd.rmi (mirrorOf ("nginx:latest".toList)) ∈
        (accelerate_pull (fun _ => 0) ("nginx:latest".toList)).2 ↔
      mirrorOf ("nginx:latest".toList) ≠ targetOf ("nginx:latest".toList)) ∧
    (accelerate_pull (fun _ => 0) ("nginx:latest".toList)).1 = true :=
  c9_cleanup_iff_distinct (fun _ => 0) ("nginx:latest".toList) rfl

/-- C7: every image of a non-empty batch is counted, the success and
failure counters sum to the number of inputs, and the process exit code
is `0` exactly when every image succeeded and `1` exactly when at least
one failed. -/
theorem c7_batch_independent (runner : Cmd → Int) (images : List Str)
    (h : images ≠ []) :
    (processImages runner images).1 + (processImages runner images).2 =
      images.length ∧
    (processImages runner images).1 =
      images.countP (fun i => (accelerate_pull runner i).1) ∧
    (mainExitCode runner images = 0 ↔
      ∀ img ∈ images, (accelerate_pull runner img).1 = true) ∧
    (mainExitCode runner images = 1 ↔
      ∃ img ∈ images, (accelerate_pull runner img).1 = false) := by
  have hp := processImages_counts runner images
  have hme : mainExitCode runner images =
      if images.countP (fun i => !(accelerate_pull runner i).1) = 0 then 0
      else 1 := by
    rw [mainExitCode, if_neg h, hp]
  refine ⟨by rw [hp]; exact countP_not_add _ images, by rw [hp], ?_, ?_⟩
  · rw [hme]
    constructor
    · intro h0 img himg
      by_cases hz : images.countP (fun i => !(accelerate_pull runner i).1) = 0
      · have hni := List.countP_eq_zero.1 hz img himg
        simpa using hni
      · rw [if_neg hz] at h0
        exact absurd h0 one_ne_zero
    · intro hall
      have hz : images.countP (fun i => !(accelerate_pull runner i).1) = 0 :=
        List.countP_eq_zero.2 (fun a ha => by simp [hall a ha])
      rw [if_pos hz]
  · rw [hme]
    constructor
    · intro h1
      by_cases hz : images.countP (fun i => !(accelerate_pull runner i).1) = 0
      · rw [if_pos hz] at h1
        exact absurd h1 (by decide)
      · obtain ⟨a, ha, hpa⟩ := List.countP_pos_iff.1 (Nat.pos_of_ne_zero hz)
        exact ⟨a, ha, by simpa using hpa⟩
    · rintro ⟨a, ha, hfa⟩
      have hz : images.countP (fun i => !(accelerate_pull runner i).1) ≠ 0 := by
        intro hz
        have hni := List.countP_eq_zero.1 hz a ha
        simp [hfa] at hni
      rw [if_neg hz]

/-- Witness for C7 on a two-image batch in which exactly the first
image's mirror pull succeeds. -/
theorem c7_batch_independent_witness :
    (processImages
        (fun c => if c = Cmd.pull (mirrorOf ("nginx:latest".toList)) then 0 else 1)
        ["nginx:latest".toList, "badimage".toList]).1 +
      (processImages
        (fun c => if c = Cmd.pull (mirrorOf ("nginx:latest".toList)) then 0 else 1)
        ["nginx:latest".toList, "badimage".toList]).2 =
      (["nginx:latest".toList, "badimage".toList] : List Str).length ∧
    (processImages
        (fun c => if c = Cmd.pull (mirrorOf ("nginx:latest".toList)) then 0 else 1)
        ["nginx:latest".toList, "badimage".toList]).1 =
      (["nginx:latest".toList, "badimage".toList] : List Str).countP
        (fun i => (accelerate_pull
          (fun c => if c = Cmd.pull (mirrorOf ("nginx:latest".toList)) then 0 else 1)
          i).1) ∧
    (mainExitCode
        (fun c => if c = Cmd.pull (mirrorOf ("nginx:latest".toList)) then 0 else 1)
        ["nginx:latest".toList, "badimage".toList] = 0 ↔
      ∀ img ∈ (["nginx:latest".toList, "badimage".toList] : List Str),
        (accelerate_pull
          (fun c => if c = Cmd.pull (mirrorOf ("nginx:latest".toList)) then 0 else 1)
          img).1 = true) ∧
    (mainExitCode
        (fun c => if c = Cmd.pull (mirrorOf ("nginx:latest".toList)) then 0 else 1)
        ["nginx:latest".toList, "badimage".toList] = 1 ↔
      ∃ img ∈ (["nginx:latest".toList, "badimage".toList] : List Str),
        (accelerate_pull
          (fun c => if c = Cmd.pull (mirrorOf ("nginx:latest".toList)) then 0 else 1)
          img).1 = false) :=
  c7_batch_independent
    (fun c => if c = Cmd.pull (mirrorOf ("nginx:latest".toList)) then 0 else 1)
    ["nginx:latest".toList, "badimage".toList] (by decide)

/-- Witness for the amended C4 at the degenerate reference
`docker.io/`. -/
theorem c4_amended_resolution_witness :
    convert_to_mirror_image ("docker.io".toList ++ ['/']) =
      some ("m.daocloud.io/docker.io".toList) :=
  (c4_amended_resolution ("docker.io".toList ++ ['/'])).2
    ("docker.io".toList) ("m.daocloud.io/docker.io".toList) rfl
    (by decide) (by decide)
